import Mathlib

/-!
Verification development for the snapshot keeper.

This file gives a shallow embedding of the core pure logic of the
repository (filename classification, pruning, freshness assessment,
probe rejection handling, download control flow, chunk tiling and hook
execution) and proves or refutes the frozen specification claims about
it.  Go machine integers in the embedded code are modelled by `Nat`
(resp. `Int` where sign matters); all embedded values in the claims are
far below 2^63, and where Go's `strconv.ParseUint` clamping on overflow
is observable it is modelled explicitly.
-/

namespace SnapshotKeeper

/-! ### Filename grammar

The repository uses three regular expressions (`pruner.go` /
`discovery.go`):

  full (anchored in the pruner):        `^snapshot-(\d+)-[A-Za-z0-9]+\.tar\.(zst|bz2|gz)$`
  incremental (anchored in the pruner): `^incremental-snapshot-(\d+)-(\d+)-[A-Za-z0-9]+\.tar\.(zst|bz2|gz)$`
  temp suffix:                          `\.(tmp|partial)$`

and the discovery package applies the first two unanchored.  For these
patterns a match is deterministic: `\d+` must be followed by a literal
`-` and `[A-Za-z0-9]+` by a literal `.`, neither of which belongs to
the repeated character class, so the greedy maximal run is the only
possible capture.  The functions below implement precisely that. -/

def isDigitChar (c : Char) : Bool := '0' ≤ c && c ≤ '9'

def isAlnumChar (c : Char) : Bool :=
  isDigitChar c || ('a' ≤ c && c ≤ 'z') || ('A' ≤ c && c ≤ 'Z')

/-- Maximal run of characters satisfying `p`, and the remainder. -/
def takeRun (p : Char → Bool) : List Char → List Char × List Char
  | [] => ([], [])
  | c :: cs =>
    if p c then
      let r := takeRun p cs
      (c :: r.1, r.2)
    else ([], c :: cs)

/-- Strip an exact literal from the front, or fail. -/
def takeLit : List Char → List Char → Option (List Char)
  | [], cs => some cs
  | _ :: _, [] => none
  | l :: ls, c :: cs => if c = l then takeLit ls cs else none

/-- Decimal value of a digit run. -/
def decimalValue (cs : List Char) : Nat :=
  cs.foldl (fun acc c => acc * 10 + (c.toNat - '0'.toNat)) 0

/-- Go `strconv.ParseUint(s, 10, 64)` with the error discarded: on
overflow Go returns `MaxUint64`, which for decimal digit input equals
clamping. -/
def parseUint64 (cs : List Char) : Nat := min (decimalValue cs) (2 ^ 64 - 1)

/-- Tail of the full pattern after the captured slot digits:
`-[A-Za-z0-9]+\.tar\.(zst|bz2|gz)`.  `anchored` demands the match ends
at the end of the string (the pruner's `^...$` form); unanchored (the
discovery form) allows trailing characters. -/
def matchTail (anchored : Bool) (cs : List Char) : Bool :=
  match cs with
  | '-' :: cs1 =>
    let alnum := takeRun isAlnumChar cs1
    if alnum.1 = [] then false
    else
      match takeLit ".tar.".toList alnum.2 with
      | none => false
      | some rest =>
        if anchored then
          rest = "zst".toList || rest = "bz2".toList || rest = "gz".toList
        else
          (takeLit "zst".toList rest).isSome || (takeLit "bz2".toList rest).isSome ||
            (takeLit "gz".toList rest).isSome
  | _ => false

/-- Match the full-snapshot pattern at the start of `cs`. -/
def matchFullAt (anchored : Bool) (cs : List Char) : Option Nat :=
  match takeLit "snapshot-".toList cs with
  | none => none
  | some cs1 =>
    let digits := takeRun isDigitChar cs1
    if digits.1 = [] then none
    else if matchTail anchored digits.2 then some (parseUint64 digits.1) else none

/-- Match the incremental-snapshot pattern at the start of `cs`,
returning `(base_slot, slot)`. -/
def matchIncAt (anchored : Bool) (cs : List Char) : Option (Nat × Nat) :=
  match takeLit "incremental-snapshot-".toList cs with
  | none => none
  | some cs1 =>
    let base := takeRun isDigitChar cs1
    if base.1 = [] then none
    else
      match base.2 with
      | '-' :: cs2 =>
        let slot := takeRun isDigitChar cs2
        if slot.1 = [] then none
        else if matchTail anchored slot.2 then
          some (parseUint64 base.1, parseUint64 slot.1)
        else none
      | _ => none

/-- Leftmost unanchored match of the full pattern (Go
`regexp.FindStringSubmatch` scans start positions left to right). -/
def scanFull : List Char → Option Nat
  | [] => none
  | c :: cs =>
    match matchFullAt false (c :: cs) with
    | some s => some s
    | none => scanFull cs

/-- Leftmost unanchored match of the incremental pattern. -/
def scanInc : List Char → Option (Nat × Nat)
  | [] => none
  | c :: cs =>
    match matchIncAt false (c :: cs) with
    | some bs => some bs
    | none => scanInc cs

/-- Anchored full-snapshot name parse (pruner's `fullSnapshotRe`). -/
def parseFullName (s : String) : Option Nat := matchFullAt true s.toList

/-- Anchored incremental-snapshot name parse (pruner's
`incrementalSnapshotRe`), returning `(base_slot, slot)`. -/
def parseIncName (s : String) : Option (Nat × Nat) := matchIncAt true s.toList

/-- `tempFileRe` = `\.(tmp|partial)$`: name ends in `.tmp` or `.partial`. -/
def isTempName (s : String) : Bool :=
  ".tmp".toList.isSuffixOf s.toList || ".partial".toList.isSuffixOf s.toList

/-! ### Pruner (`internal/pruner/pruner.go`)

The snapshot directory is modelled as the list of its file entry names
in directory-listing order (`os.ReadDir`; subdirectories are skipped by
the code and not modelled).  `Prune` classifies every entry exactly as
the loop in the source does — temp suffix first, then the anchored full
pattern, then the anchored incremental pattern — and deletes:

  * every temp file,
  * if any full exists: every full except one with the maximal slot,
    every incremental whose base slot differs from that maximal slot,
    and every matching incremental except one with the maximal slot
    among the matching ones.

The source picks "the" newest full (and incremental) as element 0 of a
`sort.Slice` descending sort, whose order on equal slots is
unspecified; the model resolves such ties to the earliest entry in
directory order, one admissible execution.  Which equal-slot file is
retained is the only difference between admissible executions. -/

inductive FileClass where
  | temp : FileClass
  | fullSnap : Nat → FileClass
  | incSnap : Nat → Nat → FileClass
  | other : FileClass
deriving DecidableEq

/-- Classification of one directory entry, in the source's test order. -/
def classifyEntry (s : String) : FileClass :=
  if isTempName s then .temp
  else
    match parseFullName s with
    | some slot => .fullSnap slot
    | none =>
      match parseIncName s with
      | some bs => .incSnap bs.1 bs.2
      | none => .other

def fullSlotOf (s : String) : Option Nat :=
  match classifyEntry s with
  | .fullSnap slot => some slot
  | _ => none

def incOf (s : String) : Option (Nat × Nat) :=
  match classifyEntry s with
  | .incSnap b sl => some (b, sl)
  | _ => none

def fullSlots (names : List String) : List Nat := names.filterMap fullSlotOf

/-- Slot of the newest full (0 when there is none). -/
def maxFullSlot (names : List String) : Nat := (fullSlots names).foldr max 0

/-- The retained full: first entry whose slot is maximal. -/
def chosenFull (names : List String) : Option String :=
  names.find? fun n => fullSlotOf n == some (maxFullSlot names)

/-- Slots of incrementals whose base slot matches the newest full. -/
def matchingIncSlots (names : List String) : List Nat :=
  names.filterMap fun n =>
    match incOf n with
    | some (b, sl) => if b = maxFullSlot names then some sl else none
    | none => none

def maxMatchingIncSlot (names : List String) : Nat :=
  (matchingIncSlots names).foldr max 0

/-- The retained incremental: first matching entry with maximal slot. -/
def chosenInc (names : List String) : Option String :=
  names.find? fun n => incOf n == some (maxFullSlot names, maxMatchingIncSlot names)

/-- Whether `Prune` leaves entry `n` of directory `names` in place. -/
def pruneKeeps (names : List String) (n : String) : Bool :=
  match classifyEntry n with
  | .temp => false
  | .other => true
  | .fullSnap _ => chosenFull names == some n
  | .incSnap _ _ => fullSlots names == [] || chosenInc names == some n

/-- The directory contents after `Prune`. -/
def prune (names : List String) : List String := names.filter (pruneKeeps names)

/-! ### Helper lemmas on `foldr max` and `find?` -/

theorem foldr_max_mem : ∀ l : List Nat, l ≠ [] → l.foldr max 0 ∈ l := by
  intro l
  induction l with
  | nil => intro h; exact absurd rfl h
  | cons a t ih =>
    intro _
    cases t with
    | nil => simp
    | cons b t' =>
      have hfold : ((a :: b :: t').foldr max 0) = max a ((b :: t').foldr max 0) := rfl
      rcases max_choice a ((b :: t').foldr max 0) with h | h
      · rw [hfold, h]; exact List.mem_cons_self _ _
      · rw [hfold, h]; exact List.mem_cons_of_mem _ (ih (by simp))

theorem le_foldr_max : ∀ l : List Nat, ∀ x ∈ l, x ≤ l.foldr max 0 := by
  intro l
  induction l with
  | nil => intro x hx; simp at hx
  | cons a t ih =>
    intro x hx
    rcases List.mem_cons.mp hx with h | h
    · subst h; exact le_max_left _ _
    · exact le_trans (ih x h) (le_max_right _ _)

theorem exists_find?_eq_some {α : Type} {p : α → Bool} :
    ∀ l : List α, (∃ x ∈ l, p x = true) → ∃ a, l.find? p = some a := by
  intro l
  induction l with
  | nil => intro h; simp at h
  | cons b t ih =>
    intro h
    by_cases hb : p b = true
    · exact ⟨b, List.find?_cons_of_pos _ hb⟩
    · rcases h with ⟨x, hx, hpx⟩
      rcases List.mem_cons.mp hx with rfl | hxt
      · exact absurd hpx hb
      · rcases ih ⟨x, hxt, hpx⟩ with ⟨a, ha⟩
        exact ⟨a, by rw [List.find?_cons_of_neg _ hb]; exact ha⟩

theorem find?_eq_some_of_unique {α : Type} {p : α → Bool} {a : α} :
    ∀ l : List α, a ∈ l → p a = true → (∀ x ∈ l, p x = true → x = a) →
      l.find? p = some a := by
  intro l
  induction l with
  | nil => intro h; simp at h
  | cons b t ih =>
    intro hmem hpa huniq
    by_cases hb : p b = true
    · rw [List.find?_cons_of_pos _ hb, huniq b (List.mem_cons_self _ _) hb]
    · rw [List.find?_cons_of_neg _ hb]
      rcases List.mem_cons.mp hmem with rfl | hat
      · exact absurd hpa hb
      · exact ih hat hpa fun x hx hpx => huniq x (List.mem_cons_of_mem _ hx) hpx

/-! ### Classification bridging lemmas -/

theorem fullSlotOf_eq_some {n : String} {s : Nat} (h : fullSlotOf n = some s) :
    classifyEntry n = .fullSnap s := by
  unfold fullSlotOf at h
  cases hc : classifyEntry n <;> simp [hc] at h <;> simp [h]

theorem incOf_eq_some {n : String} {b sl : Nat} (h : incOf n = some (b, sl)) :
    classifyEntry n = .incSnap b sl := by
  unfold incOf at h
  cases hc : classifyEntry n <;> simp [hc] at h
  simp [h.1, h.2]

theorem mem_prune {names : List String} {n : String} :
    n ∈ prune names ↔ n ∈ names ∧ pruneKeeps names n = true := by
  simp [prune, List.mem_filter]

theorem pruneKeeps_full_eq {names : List String} {n : String} {s : Nat}
    (h : classifyEntry n = .fullSnap s) :
    pruneKeeps names n = (chosenFull names == some n) := by
  simp [pruneKeeps, h]

theorem pruneKeeps_inc_eq {names : List String} {n : String} {b sl : Nat}
    (h : classifyEntry n = .incSnap b sl) :
    pruneKeeps names n = (fullSlots names == [] || chosenInc names == some n) := by
  simp [pruneKeeps, h]

theorem fullSlots_empty_iff {names : List String} :
    fullSlots names = [] ↔ ∀ n ∈ names, fullSlotOf n = none := by
  simp [fullSlots, List.filterMap_eq_nil_iff]

theorem mem_matchingIncSlots {names : List String} {sl : Nat} :
    sl ∈ matchingIncSlots names ↔
      ∃ n ∈ names, incOf n = some (maxFullSlot names, sl) := by
  simp only [matchingIncSlots, List.mem_filterMap]
  constructor
  · rintro ⟨n, hn, hf⟩
    rcases hi : incOf n with _ | ⟨b, s⟩ <;> rw [hi] at hf
    · simp at hf
    · by_cases hb : b = maxFullSlot names
      · simp [hb] at hf
        exact ⟨n, hn, by rw [hi, hb, hf]⟩
      · simp [hb] at hf
  · rintro ⟨n, hn, hi⟩
    exact ⟨n, hn, by rw [hi]; simp⟩

/-! ### C3: `Prune` deletes exactly the right files -/

/-- **C3.** For every directory state, `Prune` deletes every temp file;
leaves non-snapshot files untouched; deletes no incremental when no
full exists; and when fulls exist it retains exactly one full, carrying
the maximal full slot, deletes all other fulls, deletes every
incremental whose base slot differs from that slot, and among matching
incrementals retains exactly the one with the maximal slot. -/
theorem prune_correct (names : List String) :
    (∀ n ∈ names, isTempName n = true → n ∉ prune names) ∧
    (∀ n ∈ names, classifyEntry n = .other → n ∈ prune names) ∧
    (fullSlots names = [] →
      ∀ n ∈ names, ∀ b sl, incOf n = some (b, sl) → n ∈ prune names) ∧
    (fullSlots names ≠ [] →
      ∃ kf, chosenFull names = some kf ∧ kf ∈ prune names ∧
        fullSlotOf kf = some (maxFullSlot names) ∧
        (∀ n ∈ names, ∀ s, fullSlotOf n = some s → n ≠ kf → n ∉ prune names) ∧
        (∀ n ∈ names, ∀ b sl, incOf n = some (b, sl) → b ≠ maxFullSlot names →
          n ∉ prune names) ∧
        (matchingIncSlots names = [] →
          ∀ n ∈ names, ∀ b sl, incOf n = some (b, sl) → n ∉ prune names) ∧
        (matchingIncSlots names ≠ [] →
          ∃ ki, chosenInc names = some ki ∧ ki ∈ prune names ∧
            incOf ki = some (maxFullSlot names, maxMatchingIncSlot names) ∧
            ∀ n ∈ names, ∀ sl, incOf n = some (maxFullSlot names, sl) → n ≠ ki →
              n ∉ prune names)) := by
  refine ⟨?_, ?_, ?_, ?_⟩
  · intro n _ htemp hmem
    have hk := (mem_prune.mp hmem).2
    simp [pruneKeeps, classifyEntry, htemp] at hk
  · intro n hn hother
    exact mem_prune.mpr ⟨hn, by simp [pruneKeeps, hother]⟩
  · intro hempty n hn b sl hinc
    refine mem_prune.mpr ⟨hn, ?_⟩
    simp [pruneKeeps, incOf_eq_some hinc, hempty]
  · intro hne
    have hmax : maxFullSlot names ∈ fullSlots names := foldr_max_mem _ hne
    rcases List.mem_filterMap.mp hmax with ⟨m, hm, hfm⟩
    have hpred : (fun n => fullSlotOf n == some (maxFullSlot names)) m = true := by
      simp [hfm]
    rcases @exists_find?_eq_some String (fun n => fullSlotOf n == some (maxFullSlot names))
      names ⟨m, hm, hpred⟩ with ⟨kf, hkf⟩
    have hkfmem : kf ∈ names := List.mem_of_find?_eq_some hkf
    have hkfslot : fullSlotOf kf = some (maxFullSlot names) := by
      have := List.find?_some hkf
      simpa using this
    have hchosen : chosenFull names = some kf := hkf
    refine ⟨kf, hchosen, ?_, hkfslot, ?_, ?_, ?_, ?_⟩
    · refine mem_prune.mpr ⟨hkfmem, ?_⟩
      simp [pruneKeeps, fullSlotOf_eq_some hkfslot, hchosen]
    · intro n _ s hns hneq hmem
      have hk := (mem_prune.mp hmem).2
      simp [pruneKeeps, fullSlotOf_eq_some hns, hchosen] at hk
      exact hneq hk.symm
    · intro n _ b sl hinc hb hmem
      have hk := (mem_prune.mp hmem).2
      rw [pruneKeeps_inc_eq (incOf_eq_some hinc)] at hk
      rcases Bool.or_eq_true_iff.mp hk with h1 | h1
      · exact hne (by simpa using h1)
      · have hk2 : chosenInc names = some n := by simpa using h1
        have hk3 : List.find? (fun x => incOf x ==
            some (maxFullSlot names, maxMatchingIncSlot names)) names = some n := hk2
        have hpk := List.find?_some hk3
        simp at hpk
        rw [hinc] at hpk
        have h3 := Option.some_injective _ hpk
        exact hb (congrArg Prod.fst h3)
    · intro hmi n _ b sl hinc hmem
      have hk := (mem_prune.mp hmem).2
      rw [pruneKeeps_inc_eq (incOf_eq_some hinc)] at hk
      rcases Bool.or_eq_true_iff.mp hk with h1 | h1
      · exact hne (by simpa using h1)
      · have hk2 : chosenInc names = some n := by simpa using h1
        have hk3 : List.find? (fun x => incOf x ==
            some (maxFullSlot names, maxMatchingIncSlot names)) names = some n := hk2
        have hpk := List.find?_some hk3
        simp at hpk
        have hmem2 : maxMatchingIncSlot names ∈ matchingIncSlots names := by
          rw [mem_matchingIncSlots]
          exact ⟨n, List.mem_of_find?_eq_some hk3, hpk⟩
        rw [hmi] at hmem2
        simp at hmem2
    · intro hmi
      have hsm : maxMatchingIncSlot names ∈ matchingIncSlots names := foldr_max_mem _ hmi
      rcases mem_matchingIncSlots.mp hsm with ⟨n, hn, hni⟩
      have hpredi : (fun x => incOf x ==
          some (maxFullSlot names, maxMatchingIncSlot names)) n = true := by
        simp [hni]
      rcases @exists_find?_eq_some String
        (fun x => incOf x == some (maxFullSlot names, maxMatchingIncSlot names))
        names ⟨n, hn, hpredi⟩ with ⟨ki, hki⟩
      have hkimem : ki ∈ names := List.mem_of_find?_eq_some hki
      have hkislot : incOf ki = some (maxFullSlot names, maxMatchingIncSlot names) := by
        have := List.find?_some hki
        simpa using this
      have hchoseninc : chosenInc names = some ki := hki
      refine ⟨ki, hchoseninc, ?_, hkislot, ?_⟩
      · refine mem_prune.mpr ⟨hkimem, ?_⟩
        simp [pruneKeeps, incOf_eq_some hkislot, hchoseninc]
      · intro x _ sl hx hneq hmem
        have hk := (mem_prune.mp hmem).2
        rw [pruneKeeps_inc_eq (incOf_eq_some hx)] at hk
        rcases Bool.or_eq_true_iff.mp hk with h1 | h1
        · exact hne (by simpa using h1)
        · have hk2 : chosenInc names = some x := by simpa using h1
          rw [hchoseninc] at hk2
          exact hneq (Option.some_injective _ hk2).symm

theorem foldr_max_eq_of_all {m : Nat} (l : List Nat) (hne : l ≠ [])
    (h : ∀ x ∈ l, x = m) : l.foldr max 0 = m :=
  h _ (foldr_max_mem l hne)

theorem chosenFull_spec (names : List String) (hne : fullSlots names ≠ []) :
    ∃ kf, chosenFull names = some kf ∧ kf ∈ names ∧
      fullSlotOf kf = some (maxFullSlot names) := by
  have hmax : maxFullSlot names ∈ fullSlots names := foldr_max_mem _ hne
  rcases List.mem_filterMap.mp hmax with ⟨m, hm, hfm⟩
  have hpred : (fun n => fullSlotOf n == some (maxFullSlot names)) m = true := by
    simp [hfm]
  rcases @exists_find?_eq_some String (fun n => fullSlotOf n == some (maxFullSlot names))
    names ⟨m, hm, hpred⟩ with ⟨kf, hkf⟩
  refine ⟨kf, hkf, List.mem_of_find?_eq_some hkf, ?_⟩
  have := List.find?_some hkf
  simpa using this

/-! ### C8: pruning is idempotent -/

/-- **C8.** Running `Prune` immediately after a first run deletes
nothing: the surviving file list is a fixed point. -/
theorem prune_idempotent (names : List String) : prune (prune names) = prune names := by
  show (prune names).filter (pruneKeeps (prune names)) = prune names
  apply List.filter_eq_self.mpr
  intro n hn
  have hn' := mem_prune.mp hn
  cases hc : classifyEntry n with
  | temp =>
    exfalso
    have hk := hn'.2
    simp [pruneKeeps, hc] at hk
  | other => simp [pruneKeeps, hc]
  | fullSnap s =>
    have hkeep := hn'.2
    rw [pruneKeeps_full_eq hc] at hkeep
    have hch : chosenFull names = some n := by simpa using hkeep
    have hfn : fullSlotOf n = some (maxFullSlot names) := by
      have := List.find?_some (show List.find?
        (fun x => fullSlotOf x == some (maxFullSlot names)) names = some n from hch)
      simpa using this
    have huniq : ∀ x ∈ prune names, ∀ s', fullSlotOf x = some s' →
        x = n ∧ s' = maxFullSlot names := by
      intro x hx s' hxs
      have hkx := (mem_prune.mp hx).2
      rw [pruneKeeps_full_eq (fullSlotOf_eq_some hxs)] at hkx
      have hchx : chosenFull names = some x := by simpa using hkx
      rw [hch] at hchx
      have hxn : x = n := (Option.some_injective _ hchx).symm
      refine ⟨hxn, ?_⟩
      rw [hxn, hfn] at hxs
      exact (Option.some_injective _ hxs).symm
    have hMmem : maxFullSlot names ∈ fullSlots (prune names) :=
      List.mem_filterMap.mpr ⟨n, hn, hfn⟩
    have hM' : maxFullSlot (prune names) = maxFullSlot names :=
      foldr_max_eq_of_all _ (List.ne_nil_of_mem hMmem) (fun x hx => by
        rcases List.mem_filterMap.mp hx with ⟨y, hy, hys⟩
        exact (huniq y hy x hys).2)
    have hch' : List.find? (fun x => fullSlotOf x ==
        some (maxFullSlot (prune names))) (prune names) = some n := by
      apply find?_eq_some_of_unique
      · exact hn
      · simp [hM', hfn]
      · intro x hx hpx
        rw [hM'] at hpx
        exact (huniq x hx _ (by simpa using hpx)).1
    rw [pruneKeeps_full_eq hc]
    have hres : chosenFull (prune names) = some n := hch'
    simp [hres]
  | incSnap b sl =>
    have hkeep := hn'.2
    rw [pruneKeeps_inc_eq hc] at hkeep
    rw [pruneKeeps_inc_eq hc]
    by_cases hfe : fullSlots names = []
    · have hfe' : fullSlots (prune names) = [] := by
        rw [fullSlots_empty_iff] at hfe ⊢
        intro x hx
        exact hfe x (mem_prune.mp hx).1
      simp [hfe']
    · rcases Bool.or_eq_true_iff.mp hkeep with h1 | h1
      · exact absurd (by simpa using h1) hfe
      have hchn : chosenInc names = some n := by simpa using h1
      rcases chosenFull_spec names hfe with ⟨kf, hkf, hkfm, hkfs⟩
      have hinc_n : incOf n = some (maxFullSlot names, maxMatchingIncSlot names) := by
        have := List.find?_some (show List.find? (fun x => incOf x ==
          some (maxFullSlot names, maxMatchingIncSlot names)) names = some n from hchn)
        simpa using this
      have hkfkeep : kf ∈ prune names := by
        refine mem_prune.mpr ⟨hkfm, ?_⟩
        rw [pruneKeeps_full_eq (fullSlotOf_eq_some hkfs)]
        simp [hkf]
      have huniqf : ∀ x ∈ prune names, ∀ s', fullSlotOf x = some s' →
          s' = maxFullSlot names := by
        intro x hx s' hxs
        have hkx := (mem_prune.mp hx).2
        rw [pruneKeeps_full_eq (fullSlotOf_eq_some hxs)] at hkx
        have hchx : chosenFull names = some x := by simpa using hkx
        rw [hkf] at hchx
        have hxk : kf = x := Option.some_injective _ hchx
        rw [← hxk, hkfs] at hxs
        exact (Option.some_injective _ hxs).symm
      have hMmem : maxFullSlot names ∈ fullSlots (prune names) :=
        List.mem_filterMap.mpr ⟨kf, hkfkeep, hkfs⟩
      have hM' : maxFullSlot (prune names) = maxFullSlot names :=
        foldr_max_eq_of_all _ (List.ne_nil_of_mem hMmem) (fun x hx => by
          rcases List.mem_filterMap.mp hx with ⟨y, hy, hys⟩
          exact huniqf y hy x hys)
      have huniqi : ∀ x ∈ prune names, ∀ b' sl', incOf x = some (b', sl') → x = n := by
        intro x hx b' sl' hxs
        have hkx := (mem_prune.mp hx).2
        rw [pruneKeeps_inc_eq (incOf_eq_some hxs)] at hkx
        rcases Bool.or_eq_true_iff.mp hkx with h2 | h2
        · exact absurd (by simpa using h2) hfe
        · have hchx : chosenInc names = some x := by simpa using h2
          rw [hchn] at hchx
          exact (Option.some_injective _ hchx).symm
      have hSmem : maxMatchingIncSlot names ∈ matchingIncSlots (prune names) := by
        rw [mem_matchingIncSlots]
        refine ⟨n, hn, ?_⟩
        rw [hM']
        exact hinc_n
      have hS' : maxMatchingIncSlot (prune names) = maxMatchingIncSlot names :=
        foldr_max_eq_of_all _ (List.ne_nil_of_mem hSmem) (fun x hx => by
          rcases mem_matchingIncSlots.mp hx with ⟨y, hy, hys⟩
          have hyn := huniqi y hy _ _ hys
          rw [hyn, hM', hinc_n] at hys
          have := Option.some_injective _ hys
          exact (congrArg Prod.snd this).symm)
      have hchn' : List.find? (fun x => incOf x ==
          some (maxFullSlot (prune names), maxMatchingIncSlot (prune names)))
          (prune names) = some n := by
        apply find?_eq_some_of_unique
        · exact hn
        · simp [hM', hS', hinc_n]
        · intro x hx hpx
          have hix : incOf x =
              some (maxFullSlot (prune names), maxMatchingIncSlot (prune names)) := by
            simpa using hpx
          exact huniqi x hx _ _ hix
      have hres : chosenInc (prune names) = some n := hchn'
      simp [hres]

/-- Witness for C3 on the spec's seeded prune scenario. -/
theorem prune_correct_witness :
    "x.tmp" ∉ prune ["snapshot-100-A.tar.zst", "snapshot-300-C.tar.zst",
      "incremental-snapshot-300-350-E.tar.zst", "x.tmp"] ∧
    ∃ kf, chosenFull ["snapshot-100-A.tar.zst", "snapshot-300-C.tar.zst",
      "incremental-snapshot-300-350-E.tar.zst", "x.tmp"] = some kf ∧
      kf ∈ prune ["snapshot-100-A.tar.zst", "snapshot-300-C.tar.zst",
        "incremental-snapshot-300-350-E.tar.zst", "x.tmp"] := by
  have h := prune_correct ["snapshot-100-A.tar.zst", "snapshot-300-C.tar.zst",
    "incremental-snapshot-300-350-E.tar.zst", "x.tmp"]
  refine ⟨h.1 "x.tmp" (by decide) (by decide), ?_⟩
  rcases h.2.2.2 (by decide) with ⟨kf, h1, h2, _⟩
  exact ⟨kf, h1, h2⟩

/-! ### Local inventory (`pruner.GetLocalSnapshots` and friends) -/

structure SnapshotFile where
  slot : Nat
  baseSlot : Nat
  isFull : Bool
deriving DecidableEq

/-- `pruner.GetLocalSnapshots` on the entry names of the snapshot
directory: anchored full pattern first, then the anchored incremental
pattern; anything else (including temp files, whose names fail the
anchors) is ignored. -/
def getLocalSnapshots (names : List String) : List SnapshotFile :=
  names.filterMap fun n =>
    match parseFullName n with
    | some slot => some ⟨slot, 0, true⟩
    | none =>
      match parseIncName n with
      | some bs => some ⟨bs.2, bs.1, false⟩
      | none => none

/-- `pruner.NewestSlot`: highest slot across all local snapshots, 0 if
none. -/
def newestSlot (l : List SnapshotFile) : Nat :=
  l.foldl (fun m s => if s.slot > m then s.slot else m) 0

/-- One step of `pruner.NewestFullSnapshot`'s loop:
`if s.IsFull && (newest == nil || s.Slot > newest.Slot)`. -/
def nfsStep (acc : Option SnapshotFile) (s : SnapshotFile) : Option SnapshotFile :=
  match acc with
  | none => if s.isFull then some s else none
  | some old => if s.isFull && decide (s.slot > old.slot) then some s else acc

/-- `pruner.NewestFullSnapshot`: full snapshot with the highest slot
(first such on ties), `none` when no full exists. -/
def newestFullSnapshot (l : List SnapshotFile) : Option SnapshotFile :=
  l.foldl nfsStep none

/-- Newest local slot in the words of the spec: the maximum snapshot
slot of the inventory. -/
def newestSlotSpec (l : List SnapshotFile) : Nat :=
  (l.map SnapshotFile.slot).foldr max 0

/-- Slot of the newest local full in the words of the spec. -/
def newestFullSlotSpec (l : List SnapshotFile) : Nat :=
  ((l.filter SnapshotFile.isFull).map SnapshotFile.slot).foldr max 0

theorem newestSlot_aux (l : List SnapshotFile) :
    ∀ a : Nat, l.foldl (fun m s => if s.slot > m then s.slot else m) a =
      max a (newestSlotSpec l) := by
  induction l with
  | nil => intro a; simp [newestSlotSpec]
  | cons s t ih =>
    intro a
    have hstep : (if s.slot > a then s.slot else a) = max a s.slot := by
      by_cases h : s.slot > a
      · simp [h]; omega
      · simp [h]; omega
    simp only [List.foldl_cons, hstep, ih]
    have : newestSlotSpec (s :: t) = max s.slot (newestSlotSpec t) := rfl
    rw [this, max_assoc]

theorem newestSlot_eq (l : List SnapshotFile) : newestSlot l = newestSlotSpec l := by
  have := newestSlot_aux l 0
  simpa [newestSlot] using this

theorem nfsFold_none : ∀ (l : List SnapshotFile) (acc : Option SnapshotFile),
    l.foldl nfsStep acc = none ↔ acc = none ∧ ∀ s ∈ l, s.isFull = false := by
  intro l
  induction l with
  | nil => intro acc; simp
  | cons s t ih =>
    intro acc
    simp only [List.foldl_cons, ih]
    constructor
    · rintro ⟨hstep, hall⟩
      cases acc with
      | none =>
        refine ⟨rfl, ?_⟩
        intro x hx
        rcases List.mem_cons.mp hx with rfl | hxt
        · by_cases hf : x.isFull
          · simp [nfsStep, hf] at hstep
          · simpa using hf
        · exact hall x hxt
      | some old => simp [nfsStep] at hstep; split at hstep <;> simp_all
    · rintro ⟨rfl, hall⟩
      have hs : s.isFull = false := hall s (List.mem_cons_self _ _)
      refine ⟨by simp [nfsStep, hs], ?_⟩
      intro x hx
      exact hall x (List.mem_cons_of_mem _ hx)

def optSlot : Option SnapshotFile → Nat
  | none => 0
  | some f => f.slot

theorem nfsFold_slot : ∀ (l : List SnapshotFile) (acc : Option SnapshotFile)
    (f : SnapshotFile), l.foldl nfsStep acc = some f →
      f.slot = max (optSlot acc) (newestFullSlotSpec l) := by
  intro l
  induction l with
  | nil =>
    intro acc f h
    simp at h
    subst h
    simp [optSlot, newestFullSlotSpec]
  | cons s t ih =>
    intro acc f h
    simp only [List.foldl_cons] at h
    have hspec : newestFullSlotSpec (s :: t) =
        if s.isFull then max s.slot (newestFullSlotSpec t) else newestFullSlotSpec t := by
      by_cases hf : s.isFull <;> simp [newestFullSlotSpec, List.filter_cons, hf]
    cases acc with
    | none =>
      by_cases hf : s.isFull
      · have hstep : nfsStep none s = some s := by simp [nfsStep, hf]
        rw [hstep] at h
        have := ih (some s) f h
        rw [hspec]
        simp [hf, optSlot] at this ⊢
        rw [this]
      · have hstep : nfsStep none s = none := by simp [nfsStep, hf]
        rw [hstep] at h
        have := ih none f h
        rw [hspec]
        simp [hf, optSlot] at this ⊢
        exact this
    | some old =>
      by_cases hf : s.isFull && decide (s.slot > old.slot)
      · have hstep : nfsStep (some old) s = some s := by simp [nfsStep, hf]
        rw [hstep] at h
        have hih := ih (some s) f h
        have hfull : s.isFull = true := by
          rcases Bool.and_eq_true_iff.mp hf with ⟨h1, _⟩
          exact h1
        have hgt : old.slot < s.slot := by
          rcases Bool.and_eq_true_iff.mp hf with ⟨_, h2⟩
          exact of_decide_eq_true h2
        rw [hspec]
        simp [hfull, optSlot] at hih ⊢
        rw [hih]
        rw [← max_assoc]
        have : max old.slot s.slot = s.slot := max_eq_right (le_of_lt hgt)
        rw [this]
      · have hstep : nfsStep (some old) s = some old := by
          simp only [nfsStep]
          rw [if_neg hf]
        rw [hstep] at h
        have hih := ih (some old) f h
        rw [hspec]
        by_cases hfull : s.isFull
        · have hle : s.slot ≤ old.slot := by
            by_contra hlt
            exact hf (by simp [hfull]; omega)
          simp [hfull, optSlot] at hih ⊢
          rw [hih, ← max_assoc, max_eq_left hle]
        · simp [hfull, optSlot] at hih ⊢
          exact hih

theorem newestFullSnapshot_eq_none_iff (l : List SnapshotFile) :
    newestFullSnapshot l = none ↔ l.any SnapshotFile.isFull = false := by
  rw [newestFullSnapshot, nfsFold_none]
  simp [List.any_eq_true]

theorem newestFullSnapshot_slot {l : List SnapshotFile} {f : SnapshotFile}
    (h : newestFullSnapshot l = some f) : f.slot = newestFullSlotSpec l := by
  have := nfsFold_slot l none f h
  simpa [optSlot] using this

/-! ### C1: the freshness decision table -/

inductive DownloadMode where
  | skip : DownloadMode
  | incremental : DownloadMode
  | full : DownloadMode
deriving DecidableEq

/-- `keeper.assessFreshness`.  `readDir = none` models an unreadable
snapshot directory (`GetLocalSnapshots` returning an error); the
configured `snapshots.age.local.max_incremental_slots` (validated
positive, converted to `uint64` in the source) is `maxIncrementalSlots`. -/
def assessFreshness (readDir : Option (List String))
    (currentSlot maxIncrementalSlots : Nat) : DownloadMode × Nat :=
  match readDir with
  | none => (.full, 0)
  | some names =>
    let snapshots := getLocalSnapshots names
    if snapshots = [] then (.full, 0)
    else if newestSlot snapshots ≥ currentSlot then (.skip, 0)
    else if currentSlot - newestSlot snapshots ≤ maxIncrementalSlots then (.skip, 0)
    else
      match newestFullSnapshot snapshots with
      | some f => (.incremental, f.slot)
      | none => (.full, 0)

/-- The freshness decision table in the words of the spec (§4.8),
first match wins:
1. unreadable → (full, 0); 2. empty → (full, 0);
3. newest_local_slot ≥ T → (skip, 0);
4. T − newest_local_slot ≤ skip_threshold → (skip, 0);
5. a local full exists → (incremental, newest_full.slot);
6. otherwise → (full, 0). -/
def assessFreshnessSpec (readDir : Option (List String))
    (currentSlot maxIncrementalSlots : Nat) : DownloadMode × Nat :=
  match readDir with
  | none => (.full, 0)
  | some names =>
    let inv := getLocalSnapshots names
    if inv = [] then (.full, 0)
    else if newestSlotSpec inv ≥ currentSlot then (.skip, 0)
    else if currentSlot - newestSlotSpec inv ≤ maxIncrementalSlots then (.skip, 0)
    else if inv.any SnapshotFile.isFull then (.incremental, newestFullSlotSpec inv)
    else (.full, 0)

/-- **C1.** `assessFreshness` implements the spec's decision table
exactly, for every directory state, tip and threshold. -/
theorem assessFreshness_correct (readDir : Option (List String))
    (currentSlot maxIncrementalSlots : Nat) :
    assessFreshness readDir currentSlot maxIncrementalSlots =
      assessFreshnessSpec readDir currentSlot maxIncrementalSlots := by
  cases readDir with
  | none => rfl
  | some names =>
    simp only [assessFreshness, assessFreshnessSpec, newestSlot_eq]
    split
    · rfl
    · split
      · rfl
      · split
        · rfl
        · rcases hfs : newestFullSnapshot (getLocalSnapshots names) with _ | f
          · rw [newestFullSnapshot_eq_none_iff] at hfs
            simp [hfs]
          · have hany : (getLocalSnapshots names).any SnapshotFile.isFull = true := by
              by_contra hno
              have : newestFullSnapshot (getLocalSnapshots names) = none := by
                rw [newestFullSnapshot_eq_none_iff]
                simpa using hno
              rw [this] at hfs
              exact Option.noConfusion hfs
            simp [hany, newestFullSnapshot_slot hfs]

/-! ### Prober (`internal/discovery/discovery.go`)

`probeNode` issues one HEAD request and classifies the outcome.  The
HTTP interaction is abstracted by a `HeadResponse` record (transport
success, measured round-trip, status code, `Location` header); all
decision logic after the request is embedded from the source.  Note
that the source enumeration `rejectReason` has exactly five values —
there is no separate tag for a snapshot slot ahead of the tip; that
case reuses `tooOld` (with the `slotAge` field left at its zero
value). -/

inductive SnapshotType where
  | full : SnapshotType
  | incremental : SnapshotType
deriving DecidableEq

structure SnapshotNode where
  rpcURL : String
  snapshotURL : String
  snapshotType : SnapshotType
  slot : Nat
  baseSlot : Nat
  filename : String
  latency : Nat
  slotAge : Nat
deriving DecidableEq

/-- The source's `rejectReason` enumeration, verbatim. -/
inductive RejectReason where
  | httpError : RejectReason
  | latency : RejectReason
  | statusCode : RejectReason
  | parseFail : RejectReason
  | tooOld : RejectReason
deriving DecidableEq

/-- The source's `probeError`: a reason plus the fields populated for
`statusCode` and `tooOld` rejections (0 = Go zero value when unset). -/
structure ProbeError where
  reason : RejectReason
  statusCode : Nat
  slotAge : Nat
deriving DecidableEq

structure DiscoveryOptions where
  maxLatency : Nat
  maxSnapshotAgeSlots : Nat
  probeConcurrency : Nat
  sortOrder : String
  minSuitable : Nat
deriving DecidableEq

structure HeadResponse where
  transportOk : Bool
  latency : Nat
  status : Nat
  location : String
deriving DecidableEq

def lastSegmentChars (cs : List Char) : List Char :=
  (cs.reverse.takeWhile (fun c => c ≠ '/')).reverse

/-- Last element of Go `strings.Split(s, "/")`: the characters after
the final slash (the whole string when there is none). -/
def lastSegment (s : String) : String := ⟨lastSegmentChars s.toList⟩

/-- `discovery.parseSnapshotFilename`: unanchored match against the
pattern selected by the expected kind; unset `SnapshotNode` fields take
Go zero values. -/
def parseSnapshotFilename (filename : String) (t : SnapshotType) : Option SnapshotNode :=
  match t with
  | .incremental =>
    match scanInc filename.toList with
    | none => none
    | some bs => some ⟨"", "", .incremental, bs.2, bs.1, "", 0, 0⟩
  | .full =>
    match scanFull filename.toList with
    | none => none
    | some sl => some ⟨"", "", .full, sl, 0, "", 0, 0⟩

/-- The `switch resp.StatusCode` block of `probeNode`: resolve the
served filename from the redirect `Location` (301/302/303/307), from
the request endpoint (200), or reject with the actual status code. -/
def probeFilename (endpoint : String) (resp : HeadResponse) : Except ProbeError String :=
  if resp.status = 301 ∨ resp.status = 302 ∨ resp.status = 303 ∨ resp.status = 307 then
    if resp.location = "" then .error ⟨.statusCode, resp.status, 0⟩
    else .ok (lastSegment resp.location)
  else if resp.status = 200 then .ok (lastSegment endpoint)
  else .error ⟨.statusCode, resp.status, 0⟩

/-- `discovery.probeNode` after the HEAD request completes. -/
def probeNode (addr endpoint : String) (currentSlot : Nat) (t : SnapshotType)
    (opts : DiscoveryOptions) (resp : HeadResponse) : Except ProbeError SnapshotNode :=
  if resp.transportOk = false then .error ⟨.httpError, 0, 0⟩
  else if resp.latency > opts.maxLatency then .error ⟨.latency, 0, 0⟩
  else
    match probeFilename endpoint resp with
    | .error e => .error e
    | .ok fn =>
      match parseSnapshotFilename fn t with
      | none => .error ⟨.parseFail, 0, 0⟩
      | some node =>
        if node.slot > currentSlot then .error ⟨.tooOld, 0, 0⟩
        else
          let slotAge := currentSlot - node.slot
          if opts.maxSnapshotAgeSlots > 0 ∧ slotAge > opts.maxSnapshotAgeSlots then
            .error ⟨.tooOld, 0, slotAge⟩
          else
            .ok { node with
                  rpcURL := addr
                  snapshotURL := addr ++ "/" ++ fn
                  latency := resp.latency
                  slotAge := slotAge
                  filename := fn }

/-! ### C4: probe rejection tagging -/

/-- **C4 counterexample.** The claim says a remote slot strictly ahead
of the tip yields a distinct rejection kind `slot_ahead_of_tip`, not
`too_old`.  The code has no such kind: with tip 100 and a served
snapshot at slot 200 the rejection reason is `tooOld` — the same
constructor used for an aged-out snapshot (tip 100000, slot 200, age
99800 above the 1300 threshold). -/
theorem probeNode_slot_ahead_counterexample :
    probeNode "http://node" "/snapshot.tar.bz2" 100 .full
        ⟨100, 1300, 500, "latency", 3⟩ ⟨true, 5, 302, "/snapshot-200-Abc.tar.zst"⟩ =
      .error ⟨.tooOld, 0, 0⟩ ∧
    probeNode "http://node" "/snapshot.tar.bz2" 100000 .full
        ⟨100, 1300, 500, "latency", 3⟩ ⟨true, 5, 302, "/snapshot-200-Abc.tar.zst"⟩ =
      .error ⟨.tooOld, 0, 99800⟩ := by
  exact ⟨rfl, rfl⟩

/-- **C4 (amended).** The structured rejection of `probeNode` carries
the cause exactly as the source tags it: transport errors are
`httpError`; a round-trip above `max_latency` is `latency` (checked
before any status handling — the conjunct holds for every status and
location); a redirect without `Location`, and any status outside
{301, 302, 303, 307, 200}, are `statusCode` carrying the actual code; a
filename that does not match the expected kind is `parseFail`; a slot
strictly ahead of the tip is tagged `tooOld` with no slot age recorded
(the source has no distinct slot-ahead kind); when `max_age > 0` and
`tip − slot > max_age` the rejection is `tooOld` carrying the slot age;
and on success the node's `snapshot_url` is the origin, `"/"`, and the
parsed filename. -/
theorem probeNode_rejections (addr endpoint : String) (currentSlot : Nat)
    (t : SnapshotType) (opts : DiscoveryOptions) (resp : HeadResponse) :
    (resp.transportOk = false →
      probeNode addr endpoint currentSlot t opts resp = .error ⟨.httpError, 0, 0⟩) ∧
    (resp.transportOk = true → resp.latency > opts.maxLatency →
      probeNode addr endpoint currentSlot t opts resp = .error ⟨.latency, 0, 0⟩) ∧
    (resp.transportOk = true → resp.latency ≤ opts.maxLatency →
      (resp.status = 301 ∨ resp.status = 302 ∨ resp.status = 303 ∨ resp.status = 307) →
      resp.location = "" →
      probeNode addr endpoint currentSlot t opts resp =
        .error ⟨.statusCode, resp.status, 0⟩) ∧
    (resp.transportOk = true → resp.latency ≤ opts.maxLatency →
      ¬(resp.status = 301 ∨ resp.status = 302 ∨ resp.status = 303 ∨ resp.status = 307) →
      resp.status ≠ 200 →
      probeNode addr endpoint currentSlot t opts resp =
        .error ⟨.statusCode, resp.status, 0⟩) ∧
    (∀ fn, resp.transportOk = true → resp.latency ≤ opts.maxLatency →
      probeFilename endpoint resp = .ok fn → parseSnapshotFilename fn t = none →
      probeNode addr endpoint currentSlot t opts resp = .error ⟨.parseFail, 0, 0⟩) ∧
    (∀ fn node, resp.transportOk = true → resp.latency ≤ opts.maxLatency →
      probeFilename endpoint resp = .ok fn → parseSnapshotFilename fn t = some node →
      node.slot > currentSlot →
      probeNode addr endpoint currentSlot t opts resp = .error ⟨.tooOld, 0, 0⟩) ∧
    (∀ fn node, resp.transportOk = true → resp.latency ≤ opts.maxLatency →
      probeFilename endpoint resp = .ok fn → parseSnapshotFilename fn t = some node →
      node.slot ≤ currentSlot → opts.maxSnapshotAgeSlots > 0 →
      currentSlot - node.slot > opts.maxSnapshotAgeSlots →
      probeNode addr endpoint currentSlot t opts resp =
        .error ⟨.tooOld, 0, currentSlot - node.slot⟩) ∧
    (∀ fn node, resp.transportOk = true → resp.latency ≤ opts.maxLatency →
      probeFilename endpoint resp = .ok fn → parseSnapshotFilename fn t = some node →
      node.slot ≤ currentSlot →
      ¬(opts.maxSnapshotAgeSlots > 0 ∧ currentSlot - node.slot > opts.maxSnapshotAgeSlots) →
      probeNode addr endpoint currentSlot t opts resp =
        .ok { node with
              rpcURL := addr
              snapshotURL := addr ++ "/" ++ fn
              latency := resp.latency
              slotAge := currentSlot - node.slot
              filename := fn }) := by
  refine ⟨?_, ?_, ?_, ?_, ?_, ?_, ?_, ?_⟩
  · intro h
    simp [probeNode, h]
  · intro h1 h2
    simp [probeNode, h1, h2]
  · intro h1 h2 h3 h4
    have hpf : probeFilename endpoint resp = .error ⟨.statusCode, resp.status, 0⟩ := by
      simp [probeFilename, h3, h4]
    simp [probeNode, h1, not_lt.mpr h2, hpf]
  · intro h1 h2 h3 h4
    have hpf : probeFilename endpoint resp = .error ⟨.statusCode, resp.status, 0⟩ := by
      simp [probeFilename, h3, h4]
    simp [probeNode, h1, not_lt.mpr h2, hpf]
  · intro fn h1 h2 h3 h4
    simp [probeNode, h1, not_lt.mpr h2, h3, h4]
  · intro fn node h1 h2 h3 h4 h5
    simp [probeNode, h1, not_lt.mpr h2, h3, h4, h5]
  · intro fn node h1 h2 h3 h4 h5 h6 h7
    simp [probeNode, h1, not_lt.mpr h2, h3, h4, not_lt.mpr h5, h6, h7]
  · intro fn node h1 h2 h3 h4 h5 h6
    simp [probeNode, h1, not_lt.mpr h2, h3, h4, not_lt.mpr h5, h6]

/-- Witness for C4: a successful probe at tip 100 against a node
redirecting to `snapshot-95-Abc.tar.zst`. -/
theorem probeNode_rejections_witness :
    probeNode "http://node" "/snapshot.tar.bz2" 100 .full
        ⟨100, 1300, 500, "latency", 3⟩ ⟨true, 5, 302, "/snapshot-95-Abc.tar.zst"⟩ =
      .ok ⟨"http://node", "http://node/snapshot-95-Abc.tar.zst", .full, 95, 0,
           "snapshot-95-Abc.tar.zst", 5, 5⟩ := by
  have h := (probeNode_rejections "http://node" "/snapshot.tar.bz2" 100 .full
    ⟨100, 1300, 500, "latency", 3⟩ ⟨true, 5, 302, "/snapshot-95-Abc.tar.zst"⟩).2.2.2.2.2.2.2
  exact h "snapshot-95-Abc.tar.zst" ⟨"", "", .full, 95, 0, "", 0, 0⟩ rfl (by decide) rfl rfl
    (by decide) (by decide)

/-! ### C7: discovery sort (`sortNodes`) -/

/-- The comparator key of `sortNodes`: `"slot_age"` compares `SlotAge`,
any other configured order (the default case, `"latency"`) compares
`Latency`. -/
def nodeSortKey (sortOrder : String) (n : SnapshotNode) : Nat :=
  if sortOrder = "slot_age" then n.slotAge else n.latency

/-- Postcondition of `sortNodes`, which runs `sort.Slice` with the
comparator `nodeSortKey a < nodeSortKey b`: the slice is reordered into
some permutation sorted by the key.  This is everything `sort.Slice`
guarantees — it is documented as not stable, so the order of equal keys
is unspecified and the relation admits every consistent reordering. -/
def SortNodesResult (sortOrder : String) (input output : List SnapshotNode) : Prop :=
  output.Perm input ∧
  output.Pairwise (fun a b => nodeSortKey sortOrder a ≤ nodeSortKey sortOrder b)

/-- **C7 counterexample.** Two nodes with equal latency 5 sorted by
`"latency"`: the swapped output satisfies everything `sort.Slice`
guarantees, yet the equal-key nodes do not keep their insertion order,
refuting the claim's tie-breaking clause. -/
theorem sortNodes_stability_counterexample :
    SortNodesResult "latency"
      [⟨"http://a", "", .full, 10, 0, "", 5, 1⟩, ⟨"http://b", "", .full, 20, 0, "", 5, 2⟩]
      [⟨"http://b", "", .full, 20, 0, "", 5, 2⟩, ⟨"http://a", "", .full, 10, 0, "", 5, 1⟩] ∧
    ¬ ([(⟨"http://b", "", .full, 20, 0, "", 5, 2⟩ : SnapshotNode),
        ⟨"http://a", "", .full, 10, 0, "", 5, 1⟩].filter
          (fun n => nodeSortKey "latency" n == 5) =
        [(⟨"http://a", "", .full, 10, 0, "", 5, 1⟩ : SnapshotNode),
         ⟨"http://b", "", .full, 20, 0, "", 5, 2⟩].filter
          (fun n => nodeSortKey "latency" n == 5)) := by
  constructor
  · exact ⟨List.Perm.swap _ _ _, by decide⟩
  · decide

/-- **C7 (amended).** Any result `sortNodes` can produce is a
permutation of the input with non-decreasing `Latency` under
`sort_order = "latency"` (the default branch, i.e. any order other
than `"slot_age"`) and non-decreasing `SlotAge` under `"slot_age"`;
the relative order of nodes with equal sort keys is unspecified
(`sort.Slice` is not stable). -/
theorem sortNodes_sorted (sortOrder : String) (input output : List SnapshotNode)
    (h : SortNodesResult sortOrder input output) :
    output.Perm input ∧
    (sortOrder = "slot_age" →
      output.Pairwise (fun a b => a.slotAge ≤ b.slotAge)) ∧
    (sortOrder ≠ "slot_age" →
      output.Pairwise (fun a b => a.latency ≤ b.latency)) := by
  refine ⟨h.1, ?_, ?_⟩
  · intro hso
    refine h.2.imp ?_
    intro a b hab
    simpa [nodeSortKey, hso] using hab
  · intro hso
    refine h.2.imp ?_
    intro a b hab
    simpa [nodeSortKey, hso] using hab

/-- Witness for C7 on a concrete two-node sort by latency. -/
theorem sortNodes_sorted_witness :
    SortNodesResult "latency"
      [⟨"http://a", "", .full, 10, 0, "", 7, 1⟩, ⟨"http://b", "", .full, 20, 0, "", 5, 2⟩]
      [⟨"http://b", "", .full, 20, 0, "", 5, 2⟩, ⟨"http://a", "", .full, 10, 0, "", 7, 1⟩] ∧
    ([(⟨"http://b", "", .full, 20, 0, "", 5, 2⟩ : SnapshotNode),
      ⟨"http://a", "", .full, 10, 0, "", 7, 1⟩].Perm
        [⟨"http://a", "", .full, 10, 0, "", 7, 1⟩, ⟨"http://b", "", .full, 20, 0, "", 5, 2⟩] ∧
     ("latency" = "slot_age" →
       List.Pairwise (fun a b => a.slotAge ≤ b.slotAge)
         [(⟨"http://b", "", .full, 20, 0, "", 5, 2⟩ : SnapshotNode),
          ⟨"http://a", "", .full, 10, 0, "", 7, 1⟩]) ∧
     ("latency" ≠ "slot_age" →
       List.Pairwise (fun a b => a.latency ≤ b.latency)
         [(⟨"http://b", "", .full, 20, 0, "", 5, 2⟩ : SnapshotNode),
          ⟨"http://a", "", .full, 10, 0, "", 7, 1⟩])) := by
  have hrel : SortNodesResult "latency"
      [⟨"http://a", "", .full, 10, 0, "", 7, 1⟩, ⟨"http://b", "", .full, 20, 0, "", 5, 2⟩]
      [⟨"http://b", "", .full, 20, 0, "", 5, 2⟩, ⟨"http://a", "", .full, 10, 0, "", 7, 1⟩] :=
    ⟨List.Perm.swap _ _ _, by decide⟩
  exact ⟨hrel, sortNodes_sorted "latency" _ _ hrel⟩

/-! ### C5: parallel chunk tiling (`downloadParallel`)

`downloadParallel` computes `chunkSize := contentLength / int64(numConns)`
and launches one worker per chunk with
`rangeStart := i * chunkSize`, `rangeEnd := rangeStart + chunkSize - 1`,
overridden to `contentLength - 1` for the last worker.  All these
`int64` values are nonnegative (the parallel path requires
`contentLength > 0` and `connections > 1`), so the sizes are modelled
as `Nat` (Go's `int64` division on nonnegative operands agrees with
`Nat` division) while the range endpoints live in `Int` because
`rangeEnd` is `-1` for an empty non-last chunk. -/

def chunkSize (contentLength numConns : Nat) : Nat := contentLength / numConns

def chunkStart (contentLength numConns i : Nat) : Int :=
  (i : Int) * (chunkSize contentLength numConns : Int)

def chunkEnd (contentLength numConns i : Nat) : Int :=
  if i = numConns - 1 then (contentLength : Int) - 1
  else chunkStart contentLength numConns i + (chunkSize contentLength numConns : Int) - 1

/-- Byte offset `o` is requested by worker `i`'s `Range` header. -/
def inChunk (contentLength numConns i : Nat) (o : Int) : Prop :=
  chunkStart contentLength numConns i ≤ o ∧ o ≤ chunkEnd contentLength numConns i

/-- The chunks tile `[0, contentLength-1]` exactly: every chunk stays
inside the range, every offset of the range is covered, and no offset
belongs to two distinct chunks. -/
def ChunksTile (contentLength numConns : Nat) : Prop :=
  (∀ i, i < numConns → ∀ o : Int, inChunk contentLength numConns i o →
    0 ≤ o ∧ o ≤ (contentLength : Int) - 1) ∧
  (∀ o : Int, 0 ≤ o → o ≤ (contentLength : Int) - 1 →
    ∃ i, i < numConns ∧ inChunk contentLength numConns i o) ∧
  (∀ i j, i < numConns → j < numConns → ∀ o : Int,
    inChunk contentLength numConns i o → inChunk contentLength numConns j o → i = j)

theorem chunks_disjoint_aux (L N : Nat) {i j : Nat} {o : Int} (hij : i < j)
    (hj : j < N) (hoi : inChunk L N i o) (hoj : inChunk L N j o) : False := by
  have hiN : i ≠ N - 1 := by omega
  rcases hoi with ⟨_, hie⟩
  rcases hoj with ⟨hjs, _⟩
  rw [chunkEnd, if_neg hiN] at hie
  by_cases hc0 : chunkSize L N = 0
  · rw [chunkStart, hc0] at hie
    rw [chunkStart] at hjs
    rw [hc0] at hjs
    simp at hie hjs
    omega
  · have hmul : (i + 1) * chunkSize L N ≤ j * chunkSize L N :=
      Nat.mul_le_mul_right _ (by omega)
    have hie2 : o ≤ (i : Int) * (chunkSize L N : Int) + (chunkSize L N : Int) - 1 := by
      rw [chunkStart] at hie
      exact hie
    have hjs2 : (j : Int) * (chunkSize L N : Int) ≤ o := hjs
    have hcast : ((i + 1) * chunkSize L N : Nat) ≤ ((j * chunkSize L N : Nat)) := hmul
    have hc1 : ((i : Int) + 1) * (chunkSize L N : Int) ≤ (j : Int) * (chunkSize L N : Int) := by
      exact_mod_cast hcast
    nlinarith [hc1, hie2, hjs2]

/-- **C5.** For every positive content length and at least one
connection, the chunk ranges tile `[0, content_length − 1]`: union is
the whole range and no byte offset lies in two distinct chunks. -/
theorem chunks_tile (contentLength numConns : Nat) (hL : 0 < contentLength)
    (hN : 1 ≤ numConns) : ChunksTile contentLength numConns := by
  set c := chunkSize contentLength numConns with hc
  have hNc : numConns * c ≤ contentLength := by
    rw [hc, chunkSize, Nat.mul_comm]
    exact Nat.div_mul_le_self _ _
  refine ⟨?_, ?_, ?_⟩
  · intro i hi o ⟨hs, he⟩
    constructor
    · refine le_trans ?_ hs
      rw [chunkStart]
      positivity
    · by_cases hiN : i = numConns - 1
      · rw [chunkEnd, if_pos hiN] at he
        exact he
      · rw [chunkEnd, if_neg hiN, chunkStart] at he
        have hE : (i + 1) * c ≤ contentLength :=
          le_trans (Nat.mul_le_mul_right _ (by omega)) hNc
        have hE2 : ((i : Int) + 1) * (c : Int) ≤ (contentLength : Int) := by
          exact_mod_cast hE
        nlinarith [he, hE2]
  · intro o h0 hU
    have ho : ((o.toNat : Nat) : Int) = o := Int.toNat_of_nonneg h0
    set oN := o.toNat with hoN
    by_cases hc0 : c = 0
    · refine ⟨numConns - 1, by omega, ?_, ?_⟩
      · rw [chunkStart, ← hc, hc0]
        simpa using h0
      · rw [chunkEnd, if_pos rfl]
        exact hU
    · have hcpos : 0 < c := Nat.pos_of_ne_zero hc0
      have hdm : c * (oN / c) + oN % c = oN := Nat.div_add_mod oN c
      have hmod : oN % c < c := Nat.mod_lt _ hcpos
      by_cases hq : oN / c < numConns - 1
      · refine ⟨oN / c, by omega, ?_, ?_⟩
        · rw [chunkStart, ← hc, ← ho]
          have : (oN / c) * c ≤ oN := Nat.div_mul_le_self _ _
          exact_mod_cast this
        · rw [chunkEnd, if_neg (by omega), chunkStart, ← hc, ← ho]
          have hstep : oN + 1 ≤ c * (oN / c) + c := by omega
          have h2 : ((oN : Int)) + 1 ≤ (c : Int) * ((oN / c : Nat) : Int) + (c : Int) := by
            exact_mod_cast hstep
          linarith [h2, mul_comm ((oN / c : Nat) : Int) (c : Int)]
      · refine ⟨numConns - 1, by omega, ?_, ?_⟩
        · rw [chunkStart, ← hc, ← ho]
          have h1 : (numConns - 1) * c ≤ (oN / c) * c :=
            Nat.mul_le_mul_right _ (by omega)
          have h2 : (oN / c) * c ≤ oN := Nat.div_mul_le_self _ _
          have h3 : (numConns - 1) * c ≤ oN := le_trans h1 h2
          exact_mod_cast h3
        · rw [chunkEnd, if_pos rfl]
          exact hU
  · intro i j hi hj o hio hjo
    rcases lt_trichotomy i j with h | h | h
    · exact absurd (chunks_disjoint_aux contentLength numConns h hj hio hjo) not_false
    · exact h
    · exact absurd (chunks_disjoint_aux contentLength numConns h hi hjo hio) not_false

/-- Witness for C5: ten bytes over four connections
(chunks [0,1], [2,3], [4,5], [6,9]). -/
theorem chunks_tile_witness : 0 < 10 ∧ 1 ≤ 4 ∧ ChunksTile 10 4 :=
  ⟨by decide, by decide, chunks_tile 10 4 (by decide) (by decide)⟩

/-! ### Downloader (`internal/downloader/downloader.go`)

`Download` performs a HEAD preflight, then a parallel or single-stream
transfer into `<dest>.tmp`, then renames the temp file over the
destination.  The HTTP and OS interactions are abstracted as oracle
records (`HeadInfo`, `ParallelEnv`, `SingleEnv`, a rename outcome); the
control flow joining them — which branch runs, when the temp file comes
to exist, the `os.Remove(tempPath)` on every transfer error, the rename
— is embedded from the source.  The on-disk effect is tracked as an
`FsState`: whether `<dest>` and `<dest>.tmp` exist. -/

structure DownloadOptions where
  minDownloadSpeedBytes : Int
  minSpeedCheckDelay : Nat
  downloadConnections : Int
  downloadTimeout : Nat
deriving DecidableEq

/-- Error results of the downloader.  `speedBelowMinimum b m` stands
for the rendered message `"speed X below minimum Y"` where `X` is the
average speed computed from the `b` bytes transferred so far (the
elapsed wall time is not modelled) and `Y` renders `m =
opts.MinDownloadSpeedBytes`. -/
inductive DlError where
  | headError : DlError
  | unexpectedStatus : Nat → DlError
  | getError : DlError
  | createTmpError : DlError
  | truncateError : DlError
  | writeError : DlError
  | readError : DlError
  | chunkError : Nat → DlError → DlError
  | speedBelowMinimum : Nat → Int → DlError
  | renameError : DlError
deriving DecidableEq

inductive ReadRes where
  | ok : ReadRes
  | eof : ReadRes
  | readErr : ReadRes
deriving DecidableEq

/-- One iteration of `downloadSingle`'s streaming loop: either the
top-of-loop `select` observes `downloadCtx.Done()` (for any reason —
outer cancellation, the identity monitor, or the speed-gate goroutine's
`cancel()`), or `resp.Body.Read` returns `n` bytes with a write outcome
and a read result. -/
inductive LoopStep where
  | cancelled : LoopStep
  | read : Nat → Bool → ReadRes → LoopStep
deriving DecidableEq

/-- The streaming loop of `downloadSingle` (lines 311–334 of the
source): on a cancelled context it returns the error
`"speed X below minimum Y"` computed from the bytes counted so far,
whatever caused the cancellation; `n > 0` bytes are written (a failed
write aborts with the pre-write total) and counted; `io.EOF` ends the
loop cleanly; any other read error aborts. -/
def singleLoop (minSpeed : Int) (total : Nat) : List LoopStep → Nat × Option DlError
  | [] => (total, none)
  | .cancelled :: _ => (total, some (.speedBelowMinimum total minSpeed))
  | .read n w r :: rest =>
    if n > 0 && !w then (total, some .writeError)
    else
      match r with
      | .ok => singleLoop minSpeed (total + n) rest
      | .eof => (total + n, none)
      | .readErr => (total + n, some .readError)

structure SingleEnv where
  getOk : Bool
  status : Nat
  createOk : Bool
  steps : List LoopStep
deriving DecidableEq

/-- `downloadSingle`: GET, expect 200, create the temp file, stream.
Returns whether the temp file was created and the result.  The
speed-gate goroutine of this path only calls `cancel()` — it records no
error of its own, so its firing surfaces as a `.cancelled` loop step. -/
def downloadSingle (opts : DownloadOptions) (env : SingleEnv) :
    Bool × Except DlError Nat :=
  if env.getOk = false then (false, .error .getError)
  else if env.status ≠ 200 then (false, .error (.unexpectedStatus env.status))
  else if env.createOk = false then (false, .error .createTmpError)
  else
    match singleLoop opts.minDownloadSpeedBytes 0 env.steps with
    | (total, none) => (true, .ok total)
    | (_, some e) => (true, .error e)

/-- Joint outcome of `downloadParallel` after the temp file is set up:
the first error recorded (by a chunk worker or the speed gate, which in
this path does record `speedBelowMinimum`) or the total byte count. -/
structure ParallelEnv where
  createOk : Bool
  truncateOk : Bool
  outcome : Except DlError Nat

/-- `downloadParallel`: create the temp file, truncate it to the
content length, run the workers. -/
def downloadParallel (env : ParallelEnv) : Bool × Except DlError Nat :=
  if env.createOk = false then (false, .error .createTmpError)
  else if env.truncateOk = false then (true, .error .truncateError)
  else (true, env.outcome)

structure HeadInfo where
  contentLength : Int
  acceptRangesBytes : Bool
deriving DecidableEq

structure FsState where
  destExists : Bool
  tmpExists : Bool
deriving DecidableEq

structure DownloadEnv where
  head : Option HeadInfo
  par : ParallelEnv
  single : SingleEnv
  renameOk : Bool

/-- Tail of `Download` after the transfer returns: on any transfer
error, `os.Remove(tempPath)`; otherwise `os.Rename(tempPath, destPath)`
(which fails when the temp file does not exist), removing the temp file
on a rename failure too. -/
def finishDownload (s : FsState) (renameOk : Bool)
    (tr : Bool × Except DlError Nat) : FsState × Except DlError Nat :=
  match tr with
  | (_, .error e) => (⟨s.destExists, false⟩, .error e)
  | (created, .ok total) =>
    if (s.tmpExists || created) && renameOk then (⟨true, false⟩, .ok total)
    else (⟨s.destExists, false⟩, .error .renameError)

/-- `downloader.Download`: HEAD preflight (`none` = request creation or
execution error, including a cancelled context — the source returns
before touching the filesystem), branch selection per
`supportsRange && opts.DownloadConnections > 1`, transfer, finalize. -/
def Download (opts : DownloadOptions) (s : FsState) (env : DownloadEnv) :
    FsState × Except DlError Nat :=
  match env.head with
  | none => (s, .error .headError)
  | some h =>
    finishDownload s env.renameOk
      (if h.acceptRangesBytes && decide (h.contentLength > 0) &&
          decide (opts.downloadConnections > 1)
       then downloadParallel env.par
       else downloadSingle opts env.single)

/-! ### C9: single-stream cancellation is reported as a speed failure -/

theorem singleLoop_cancelled (minSpeed : Int) (total : Nat)
    (pre : List Nat) (rest : List LoopStep) :
    singleLoop minSpeed total
        (pre.map (fun n => LoopStep.read n true .ok) ++ LoopStep.cancelled :: rest) =
      (total + pre.sum, some (.speedBelowMinimum (total + pre.sum) minSpeed)) := by
  induction pre generalizing total with
  | nil => simp [singleLoop]
  | cons n t ih =>
    have h1 : singleLoop minSpeed total
        ((n :: t).map (fun m => LoopStep.read m true .ok) ++ LoopStep.cancelled :: rest) =
      singleLoop minSpeed (total + n)
        (t.map (fun m => LoopStep.read m true .ok) ++ LoopStep.cancelled :: rest) := by
      simp [singleLoop]
    rw [h1, ih (total + n), List.sum_cons, Nat.add_assoc]

/-- **C9.** Whenever the single-stream download's context is cancelled
— after any prefix of successful reads, for any cause, and regardless
of the speed-gate configuration — `downloadSingle` returns the
`"speed X below minimum Y"` error computed from the bytes transferred
so far; no other error is recorded for a cancellation on this path. -/
theorem downloadSingle_cancel_reports_speed (opts : DownloadOptions)
    (pre : List Nat) (rest : List LoopStep) :
    downloadSingle opts ⟨true, 200,
        true, pre.map (fun n => LoopStep.read n true .ok) ++ LoopStep.cancelled :: rest⟩ =
      (true, .error (.speedBelowMinimum pre.sum opts.minDownloadSpeedBytes)) := by
  simp only [downloadSingle]
  rw [singleLoop_cancelled]
  simp

/-! ### C2: atomic finalize and temp cleanup -/

/-- **C2 counterexample.** With the destination absent but a stale
`<filename>.tmp` present, a HEAD failure (e.g. a context cancelled
before the preflight completes) makes `Download` return an error
without deleting the stale temp file, contradicting the claim that on
every error return the temp file has been deleted. -/
theorem download_stale_tmp_counterexample :
    FsState.destExists ⟨false, true⟩ = false ∧
    (Download ⟨0, 0, 8, 0⟩ ⟨false, true⟩
        ⟨none, ⟨true, true, .ok 0⟩, ⟨true, 200, true, []⟩, true⟩).2 =
      .error .headError ∧
    (Download ⟨0, 0, 8, 0⟩ ⟨false, true⟩
        ⟨none, ⟨true, true, .ok 0⟩, ⟨true, 200, true, []⟩, true⟩).1.tmpExists = true :=
  ⟨rfl, rfl, rfl⟩

theorem finishDownload_atomic (renameOk : Bool) (tr : Bool × Except DlError Nat) :
    (∀ total, (finishDownload ⟨false, false⟩ renameOk tr).2 = .ok total →
      (finishDownload ⟨false, false⟩ renameOk tr).1.destExists = true ∧
      (finishDownload ⟨false, false⟩ renameOk tr).1.tmpExists = false) ∧
    (∀ e, (finishDownload ⟨false, false⟩ renameOk tr).2 = .error e →
      (finishDownload ⟨false, false⟩ renameOk tr).1.destExists = false ∧
      (finishDownload ⟨false, false⟩ renameOk tr).1.tmpExists = false) := by
  rcases tr with ⟨created, res⟩
  cases res with
  | error e => simp [finishDownload]
  | ok total => cases created <;> cases renameOk <;> simp [finishDownload]

/-- **C2 (amended).** For every call to `Download` where neither the
destination file nor `<filename>.tmp` exists beforehand: on success the
destination exists (produced by the rename) and the temp file does not;
on an error return for any reason the destination still does not exist
and the temp file does not exist either.  (The amendment adds the
absent-temp precondition: as the counterexample shows, a stale temp
file survives an error raised before the transfer starts.) -/
theorem download_atomic (opts : DownloadOptions) (s : FsState) (env : DownloadEnv)
    (hdest : s.destExists = false) (htmp : s.tmpExists = false) :
    (∀ total, (Download opts s env).2 = .ok total →
      (Download opts s env).1.destExists = true ∧
      (Download opts s env).1.tmpExists = false) ∧
    (∀ e, (Download opts s env).2 = .error e →
      (Download opts s env).1.destExists = false ∧
      (Download opts s env).1.tmpExists = false) := by
  rcases s with ⟨d, tp⟩
  simp only at hdest htmp
  subst hdest; subst htmp
  rcases env with ⟨head, par, single, renameOk⟩
  cases head with
  | none =>
    constructor
    · intro total hx
      simp [Download] at hx
    · intro e _
      exact ⟨rfl, rfl⟩
  | some h =>
    exact finishDownload_atomic renameOk _

/-- Witness for C2: a successful four-connection ranged download of
100 bytes into an empty directory. -/
theorem download_atomic_witness :
    FsState.destExists ⟨false, false⟩ = false ∧
    FsState.tmpExists ⟨false, false⟩ = false ∧
    ((∀ total, (Download ⟨0, 0, 4, 0⟩ ⟨false, false⟩
        ⟨some ⟨100, true⟩, ⟨true, true, .ok 100⟩, ⟨true, 200, true, []⟩, true⟩).2 =
          .ok total →
      (Download ⟨0, 0, 4, 0⟩ ⟨false, false⟩
        ⟨some ⟨100, true⟩, ⟨true, true, .ok 100⟩, ⟨true, 200, true, []⟩, true⟩).1.destExists =
          true ∧
      (Download ⟨0, 0, 4, 0⟩ ⟨false, false⟩
        ⟨some ⟨100, true⟩, ⟨true, true, .ok 100⟩, ⟨true, 200, true, []⟩, true⟩).1.tmpExists =
          false) ∧
    (∀ e, (Download ⟨0, 0, 4, 0⟩ ⟨false, false⟩
        ⟨some ⟨100, true⟩, ⟨true, true, .ok 100⟩, ⟨true, 200, true, []⟩, true⟩).2 =
          .error e →
      (Download ⟨0, 0, 4, 0⟩ ⟨false, false⟩
        ⟨some ⟨100, true⟩, ⟨true, true, .ok 100⟩, ⟨true, 200, true, []⟩, true⟩).1.destExists =
          false ∧
      (Download ⟨0, 0, 4, 0⟩ ⟨false, false⟩
        ⟨some ⟨100, true⟩, ⟨true, true, .ok 100⟩, ⟨true, 200, true, []⟩, true⟩).1.tmpExists =
          false)) :=
  ⟨rfl, rfl, download_atomic ⟨0, 0, 4, 0⟩ ⟨false, false⟩
    ⟨some ⟨100, true⟩, ⟨true, true, .ok 100⟩, ⟨true, 200, true, []⟩, true⟩ rfl rfl⟩

/-! ### C6: the download timeout is never applied -/

/-- **C6 (code_bug).** The claim — and the repository's own README
(`timeout: 30m  # hard timeout per download`) and config validation —
say `download_timeout` bounds every download by a context deadline.
The downloader never reads `Options.DownloadTimeout` (no
`context.WithTimeout`/`WithDeadline` exists in `downloader.go`), so the
entire behaviour of `Download` is independent of the configured
timeout: two runs differing only in that field are identical, and a
transfer that outlives the timeout is never cancelled by it. -/
theorem download_ignores_timeout (a : Int) (b : Nat) (c : Int) (t1 t2 : Nat)
    (s : FsState) (env : DownloadEnv) :
    Download ⟨a, b, c, t1⟩ s env = Download ⟨a, b, c, t2⟩ s env := rfl

/-! ### Hooks (`internal/hooks/hooks.go`)

`RunHooks` walks the configured hook list in order.  The execution of
one hook (template rendering plus `exec.CommandContext`) is abstracted
as an oracle `exec : HookCommand → Bool` (whether `runHook` returns
nil); the loop is embedded from the source and additionally records the
hooks actually executed, so the claims about ordering and skipping are
expressible. -/

structure HookCommand where
  name : String
  cmd : String
  args : List String
  environment : List (String × String)
  allowFailure : Bool
  streamOutput : Bool
  disabled : Bool
deriving DecidableEq

/-- `hooks.RunHooks`: skip disabled hooks; on a failure continue when
`AllowFailure` and otherwise return the wrapped error (modelled by the
failed hook's name) at once.  First component: hooks executed, in
order. -/
def runHooks (hooks : List HookCommand) (exec : HookCommand → Bool) :
    List HookCommand × Option String :=
  match hooks with
  | [] => ([], none)
  | h :: rest =>
    if h.disabled then runHooks rest exec
    else if exec h then
      let r := runHooks rest exec
      (h :: r.1, r.2)
    else if h.allowFailure then
      let r := runHooks rest exec
      (h :: r.1, r.2)
    else ([h], some h.name)

theorem runHooks_sublist (exec : HookCommand → Bool) :
    ∀ hooks : List HookCommand, List.Sublist (runHooks hooks exec).1 hooks := by
  intro hooks
  induction hooks with
  | nil => simp [runHooks]
  | cons h rest ih =>
    cases hd : h.disabled with
    | true =>
      simp only [runHooks, hd, if_true]
      exact List.Sublist.cons _ ih
    | false =>
      cases he : exec h with
      | true =>
        simp only [runHooks, hd, he, Bool.false_eq_true, if_false, if_true]
        exact List.Sublist.cons₂ _ ih
      | false =>
        cases ha : h.allowFailure with
        | true =>
          simp only [runHooks, hd, he, ha, Bool.false_eq_true, if_false, if_true]
          exact List.Sublist.cons₂ _ ih
        | false =>
          simp only [runHooks, hd, he, ha, Bool.false_eq_true, if_false]
          exact List.Sublist.cons₂ _ (List.nil_sublist _)

theorem runHooks_not_disabled (exec : HookCommand → Bool) :
    ∀ hooks : List HookCommand, ∀ h ∈ (runHooks hooks exec).1, h.disabled = false := by
  intro hooks
  induction hooks with
  | nil => simp [runHooks]
  | cons h rest ih =>
    intro x hx
    cases hd : h.disabled with
    | true =>
      rw [runHooks] at hx
      simp only [hd, if_true] at hx
      exact ih x hx
    | false =>
      cases he : exec h with
      | true =>
        rw [runHooks] at hx
        simp only [hd, he, Bool.false_eq_true, if_false, if_true] at hx
        rcases List.mem_cons.mp hx with rfl | hxr
        · exact hd
        · exact ih x hxr
      | false =>
        cases ha : h.allowFailure with
        | true =>
          rw [runHooks] at hx
          simp only [hd, he, ha, Bool.false_eq_true, if_false, if_true] at hx
          rcases List.mem_cons.mp hx with rfl | hxr
          · exact hd
          · exact ih x hxr
        | false =>
          rw [runHooks] at hx
          simp only [hd, he, ha, Bool.false_eq_true, if_false] at hx
          rcases List.mem_cons.mp hx with rfl | hxr
          · exact hd
          · simp at hxr

theorem runHooks_abort (exec : HookCommand → Bool) (h : HookCommand)
    (post : List HookCommand) (hd : h.disabled = false) (he : exec h = false)
    (ha : h.allowFailure = false) :
    ∀ pre : List HookCommand,
      (∀ g ∈ pre, g.disabled = true ∨ exec g = true ∨ g.allowFailure = true) →
      runHooks (pre ++ h :: post) exec =
        (pre.filter (fun g => !g.disabled) ++ [h], some h.name) := by
  intro pre
  induction pre with
  | nil =>
    intro _
    simp [runHooks, hd, he, ha]
  | cons g t ih =>
    intro hall
    have ht : ∀ x ∈ t, x.disabled = true ∨ exec x = true ∨ x.allowFailure = true :=
      fun x hx => hall x (List.mem_cons_of_mem _ hx)
    have hih := ih ht
    cases hgd : g.disabled with
    | true =>
      simp only [List.cons_append, runHooks, hgd, if_true, List.append_eq, hih,
        List.filter_cons, Bool.not_true, Bool.false_eq_true, if_false]
    | false =>
      rcases hall g (List.mem_cons_self _ _) with hg | hg | hg
      · rw [hgd] at hg
        exact absurd hg (by simp)
      · simp only [List.cons_append, runHooks, hgd, hg, Bool.false_eq_true, if_false,
          if_true, List.append_eq, hih, List.filter_cons, Bool.not_false]
      · cases hge : exec g with
        | true =>
          simp only [List.cons_append, runHooks, hgd, hge, Bool.false_eq_true, if_false,
            if_true, List.append_eq, hih, List.filter_cons, Bool.not_false]
        | false =>
          simp only [List.cons_append, runHooks, hgd, hge, hg, Bool.false_eq_true,
            if_false, if_true, List.append_eq, hih, List.filter_cons, Bool.not_false]

/-! ### C10: hook execution order and failure handling -/

/-- **C10.** `RunHooks` processes hooks in list order (the executed
hooks form a sublist of the input), never executes a hook whose
`Disabled` flag is set, continues with the next hook when a failing
hook has `AllowFailure`, and on a failure without `AllowFailure`
returns that hook's error at once, executing no later hook: the
executed list is exactly the enabled hooks before the failing one plus
the failing hook itself. -/
theorem runHooks_correct (hooks : List HookCommand) (exec : HookCommand → Bool) :
    List.Sublist (runHooks hooks exec).1 hooks ∧
    (∀ h ∈ (runHooks hooks exec).1, h.disabled = false) ∧
    (∀ h rest, h.disabled = false → exec h = false → h.allowFailure = true →
      runHooks (h :: rest) exec =
        (h :: (runHooks rest exec).1, (runHooks rest exec).2)) ∧
    (∀ pre h post, hooks = pre ++ h :: post →
      (∀ g ∈ pre, g.disabled = true ∨ exec g = true ∨ g.allowFailure = true) →
      h.disabled = false → exec h = false → h.allowFailure = false →
      runHooks hooks exec =
        (pre.filter (fun g => !g.disabled) ++ [h], some h.name)) := by
  refine ⟨runHooks_sublist exec hooks, runHooks_not_disabled exec hooks, ?_, ?_⟩
  · intro h rest hd he ha
    simp [runHooks, hd, he, ha]
  · intro pre h post hsplit hall hd he ha
    rw [hsplit]
    exact runHooks_abort exec h post hd he ha pre hall

/-- Witness for C10: a disabled hook, a failing hook allowed to fail, a
fatal failing hook and a hook after it that must not run. -/
theorem runHooks_correct_witness :
    runHooks [⟨"d", "x", [], [], false, false, true⟩,
              ⟨"a", "x", [], [], true, false, false⟩,
              ⟨"f", "x", [], [], false, false, false⟩,
              ⟨"z", "x", [], [], false, false, false⟩] (fun _ => false) =
      ([⟨"a", "x", [], [], true, false, false⟩, ⟨"f", "x", [], [], false, false, false⟩],
        some "f") := by
  have h := (runHooks_correct
    [⟨"d", "x", [], [], false, false, true⟩, ⟨"a", "x", [], [], true, false, false⟩,
     ⟨"f", "x", [], [], false, false, false⟩, ⟨"z", "x", [], [], false, false, false⟩]
    (fun _ => false)).2.2.2
  have h2 := h [⟨"d", "x", [], [], false, false, true⟩, ⟨"a", "x", [], [], true, false, false⟩]
    ⟨"f", "x", [], [], false, false, false⟩ [⟨"z", "x", [], [], false, false, false⟩]
    rfl (by decide) rfl rfl rfl
  exact h2

end SnapshotKeeper
